import Mathlib

/-!
# pomo: command actions and task-tree queries

A shallow embedding of the command actions of `main.go` (`start`, `create`,
`list`, `_status`) and of the `get` action of `cmd/pomo/get.go`.

* Tasks are a finite tree (`Task`); timestamps and durations are integers.
* A command action is a value of `Cmd`: the sequence of calls it makes to its
  collaborators (`Event`) together with the way it ends, either a normal
  return or the failure path entered through `maybe`.
* The collaborators themselves (store, socket, duration parser) are external;
  what they answer is given by a `World`.
* `sort.Sort` of the Go standard library is a parameter constrained by its
  documented contract (`SortContract`); `insertionSorter` is one instance.
* The traversal `ForEachMutate` is bounded by fuel; the theorems show that
  fuel equal to the height of the tree is enough for it to return.
-/

namespace Pomo

/-! ## Data model -/

/-- One work interval. `Start` and `End` are absent until set by the runtime. -/
structure Pomodoro where
  Start : Option Nat
  End : Option Nat
deriving DecidableEq, Repr

/-- A task with its pomodoros and its subtasks (`Tasks`). -/
structure Task where
  ID : Int
  Message : String
  Tags : List String
  Duration : Int
  Pomodoros : List Pomodoro
  Tasks : List Task
deriving Repr

/-- Modelled from the spec: the `Status` type is declared outside the two
source files; the spec describes a status snapshot as the current task id,
its message, the active pomodoro index and the per-pomodoro start and end. -/
structure Status where
  ID : Int
  Message : String
  Active : Int
  Pomodoros : List Pomodoro
deriving DecidableEq, Repr

/-- The Go composite literal `Status{}`: every field at its zero value. -/
def Status.empty : Status := ⟨0, "", 0, []⟩

/-- Go `error` values that are not nil. -/
abbrev Error := String

/-! ## Command actions as traces of collaborator calls -/

/-- The calls a command action makes to its collaborators, in program order. -/
inductive Event where
  | NewSQLiteStore
  | Close
  | CreateOne (task : Task)
  | ReadOne (id : Int)
  | NewSocketServer (task : Task)
  | Serve
  | startUI
  | shutdown
  | NewSocketClient
  | ClientStatus
  | ClientClose
  | outputStatus (s : Status)
  | Printf (id : Int)
deriving Repr

/-- A run of a command action: the calls made so far and how the run ended.
`Except.error e` is the failure path (`maybe` received the non-nil error `e`);
`Except.ok` is a normal return. -/
structure Cmd (α : Type) where
  trace : List Event
  result : Except Error α

/-- Sequencing: the second part runs only when the first returned normally. -/
def Cmd.bind {α β : Type} (c : Cmd α) (f : α → Cmd β) : Cmd β :=
  match c.result with
  | .error e => ⟨c.trace, .error e⟩
  | .ok a => ⟨c.trace ++ (f a).trace, (f a).result⟩

instance : Monad Cmd where
  pure a := ⟨[], .ok a⟩
  bind := Cmd.bind

/-- Record one collaborator call. -/
def emit (e : Event) : Cmd Unit := ⟨[e], .ok ()⟩

/-- Modelled from the spec: `maybe` is defined outside the two source files.
By the spec a failure that reaches the command-line boundary terminates the
invocation; so `maybe` with a nil error continues and `maybe` with a non-nil
error ends the run on the failure path. The argument is the `(value, err)`
pair of the preceding call. -/
def maybe {α : Type} (r : Except Error α) : Cmd α := ⟨[], r⟩

/-- A socket client that was created successfully; `Status` is the answer its
status request gets. -/
structure Client where
  Status : Except Error Status

/-- What the external collaborators answer during one invocation. -/
structure World where
  ParseDuration : String → Except Error Int
  NewSQLiteStore : Except Error Unit
  CreateOne : Task → Except Error Int
  ReadOne : Int → Except Error Task
  NewSocketServer : Task → Except Error Unit
  Serve : Except Error Unit
  startUI : Except Error Unit
  NewSocketClient : Except Error Client

/-- Modelled from the spec: `NewPomodoros` is defined outside the two source
files; the spec has the constructor build N pending pomodoros, with neither
start nor end set. A count below one gives no pomodoro. -/
def NewPomodoros (n : Int) : List Pomodoro :=
  List.replicate n.toNat ⟨none, none⟩

/-- The action of `start` (main.go, lines 23-48). The event `Serve` is the go
statement of lines 41-43 that launches `server.Serve()`, before `startUI` is
called; the event `shutdown` is the receive from the `shutdown` channel of
line 47, where the result of `Serve` reaches `maybe`. The deferred
`store.Close()` runs on a normal return. -/
def start (w : World) (duration : String) (pomodoros : Int) (message : String)
    (tags : List String) : Cmd Unit := do
  let parsed ← maybe (w.ParseDuration duration)
  emit .NewSQLiteStore
  maybe w.NewSQLiteStore
  let task : Task :=
    { ID := 0, Message := message, Tags := tags, Pomodoros := NewPomodoros pomodoros,
      Duration := parsed, Tasks := [] }
  emit (.CreateOne task)
  let taskID ← maybe (w.CreateOne task)
  emit (.ReadOne taskID)
  let task ← maybe (w.ReadOne taskID)
  emit (.NewSocketServer task)
  maybe (w.NewSocketServer task)
  emit .Serve
  emit .startUI
  maybe w.startUI
  emit .shutdown
  maybe w.Serve
  emit .Close

/-- The action of `create` (main.go, lines 61-76). -/
def create (w : World) (duration : String) (pomodoros : Int) (message : String)
    (tags : List String) : Cmd Unit := do
  let parsed ← maybe (w.ParseDuration duration)
  emit .NewSQLiteStore
  maybe w.NewSQLiteStore
  let task : Task :=
    { ID := 0, Message := message, Tags := tags, Pomodoros := NewPomodoros pomodoros,
      Duration := parsed, Tasks := [] }
  emit (.CreateOne task)
  let taskID ← maybe (w.CreateOne task)
  emit (.Printf taskID)
  emit .Close

/-- The action of `_status` (main.go, lines 173-183). -/
def _status (w : World) : Cmd Unit := do
  emit .NewSocketClient
  match w.NewSocketClient with
  | .error _ =>
    emit (.outputStatus Status.empty)
    return
  | .ok client =>
    emit .ClientStatus
    let status ← maybe client.Status
    emit (.outputStatus status)
    emit .ClientClose

/-- The event is a write to the store. -/
def Event.isWrite : Event → Bool
  | .CreateOne _ => true
  | _ => false

/-- The event is a status request on an established client. -/
def Event.isStatusRequest : Event → Bool
  | .ClientStatus => true
  | _ => false

/-- The event outputs the given status. -/
def Event.outputs (s : Status) : Event → Bool
  | .outputStatus s' => decide (s' = s)
  | _ => false

/-- The run took the failure path. -/
def Cmd.failed {α : Type} (c : Cmd α) : Bool :=
  match c.result with
  | .error _ => true
  | .ok _ => false

/-! ## Task trees -/

mutual
/-- Number of levels of the tree rooted at a task. -/
def Task.height : Task → Nat
  | ⟨_, _, _, _, _, ts⟩ => heightList ts + 1
/-- Largest height among a list of sibling tasks. -/
def heightList : List Task → Nat
  | [] => 0
  | t :: ts => max t.height (heightList ts)
end

mutual
/-- Every task of the tree, parent before children (pre-order). -/
def Task.nodes : Task → List Task
  | ⟨i, m, g, d, p, ts⟩ => ⟨i, m, g, d, p, ts⟩ :: nodesList ts
/-- The nodes of a list of sibling trees. -/
def nodesList : List Task → List Task
  | [] => []
  | t :: ts => t.nodes ++ nodesList ts
end

/-- Two tasks agree on everything except their subtasks. -/
def SameFields (t r : Task) : Prop :=
  r.ID = t.ID ∧ r.Message = t.Message ∧ r.Tags = t.Tags ∧ r.Duration = t.Duration ∧
    r.Pomodoros = t.Pomodoros

/-- The tree `r` is the tree `t` with the subtasks of some nodes reordered:
the two roots agree on their own fields, and the subtasks of `r` are a
permutation of reordered versions `cs` of the subtasks of `t`, one for each
subtask of `t`. No task is inserted, removed or moved to another parent. -/
inductive Reordered : Task → Task → Prop
  | node (t r : Task) (cs : List Task) :
      SameFields t r → List.Forall₂ Reordered t.Tasks cs → cs.Perm r.Tasks → Reordered t r

/-! ## Comparators and sorting -/

/-- Modelled from the spec: `TasksByID` (package sort) is declared outside the
two source files; the spec gives it as ascending numeric id. This is its
`Less`. -/
def TasksByID (a b : Task) : Bool := decide (a.ID < b.ID)

/-- Modelled from the spec: `ByID` of `main.go`, ascending numeric id. -/
def ByID (a b : Task) : Bool := decide (a.ID < b.ID)

/-- The earliest start among the pomodoros of a task that have started. -/
def earliestStart (t : Task) : Option Nat :=
  match t.Pomodoros.filterMap Pomodoro.Start with
  | [] => none
  | s :: ss => some (ss.foldl min s)

/-- Modelled from the spec: `TasksByStart` (package sort) is declared outside
the two source files; the spec gives it as ascending earliest-pomodoro start,
a task with no started pomodoro sorting as the oldest. This is its `Less`. -/
def TasksByStart (a b : Task) : Bool :=
  match earliestStart a, earliestStart b with
  | none, some _ => true
  | some x, some y => decide (x < y)
  | _, none => false

/-- The `sort.Reverse` of the Go library: `Less(i, j)` of the reversed order is
`Less(j, i)` of the given one. -/
def Reverse (less : Task → Task → Bool) : Task → Task → Bool :=
  fun a b => less b a

/-- A sorting routine in the role of `sort.Sort`: given `Less` and a slice it
yields the slice after sorting. -/
abbrev Sorter := (Task → Task → Bool) → List Task → List Task

/-- The comparator is a strict weak order, which `sort.Sort` requires. -/
structure StrictWeak (less : Task → Task → Bool) : Prop where
  irrefl : ∀ a, less a a = false
  trans : ∀ a b c, less a b = true → less b c = true → less a c = true
  incomp : ∀ a b c, less a b = false → less b c = false → less a c = false

/-- The documented contract of `sort.Sort`: the slice is rearranged (a
permutation), and for a strict weak order no later element is `Less` than an
earlier one. Stability is not promised. -/
structure SortContract (srt : Sorter) : Prop where
  perm : ∀ less xs, (srt less xs).Perm xs
  sorted : ∀ less xs, StrictWeak less → (srt less xs).Pairwise (fun a b => less b a = false)

/-- Insertion sort, one routine that meets the contract of `sort.Sort`; the
sample inputs are evaluated with it. -/
def insertionSorter : Sorter :=
  fun less xs => xs.insertionSort (fun a b => less b a = false)

/-! ## The `get` action -/

/-- A filter of package functional: a predicate on a task. -/
abbrev Filter := Task → Bool

/-- The task passes every filter; evaluation stops at the first that fails. -/
def matchAll : List Filter → Task → Bool
  | [], _ => true
  | f :: fs, t => if f t then matchAll fs t else false

/-- Modelled from the spec: `FindMany` (package functional) is defined outside
the two source files. By the spec it applies the filters to a sequence of
sibling tasks and returns those matching all of them, in the original order;
a filter sees the task itself. The loop appends each matching task to the
result. -/
def FindMany (tasks : List Task) (filters : List Filter) : List Task :=
  tasks.foldl (fun found t => if matchAll filters t then found ++ [t] else found) []

/-- Apply a fallible function to every element, failing when one fails. -/
def optMap {α β : Type} (f : α → Option β) : List α → Option (List β)
  | [] => some []
  | x :: xs =>
    match f x, optMap f xs with
    | some y, some ys => some (y :: ys)
    | _, _ => none

/-- Modelled from the spec: `ForEachMutate` (package functional) is defined
outside the two source files. By the spec it visits every task of the subtree
in pre-order, parent before children, and hands `fn` a mutable reference to
the visited task; the children visited are those the task has after `fn` ran.
The recursion is bounded by `fuel`; `none` means the bound was too small. -/
def ForEachMutate : Nat → (Task → Task) → Task → Option Task
  | 0, _, _ => none
  | fuel + 1, fn, task =>
    let task := fn task
    match optMap (ForEachMutate fuel fn) task.Tasks with
    | some ts => some { task with Tasks := ts }
    | none => none

/-- The callback of `get` (get.go, lines 50-56). -/
def sortCallback (srt : Sorter) (ascend recent : Bool) (task : Task) : Task :=
  if ascend then
    { task with Tasks := srt (Reverse TasksByID) task.Tasks }
  else if recent then
    { task with Tasks := srt (Reverse TasksByStart) task.Tasks }
  else
    task

/-- The filter step of `get` (get.go, line 48). -/
def getFilter (filters : List Filter) (root : Task) : Task :=
  { root with Tasks := FindMany root.Tasks filters }

/-- The sort step of `get` (get.go, lines 50-56). -/
def getSort (srt : Sorter) (fuel : Nat) (ascend recent : Bool) (root : Task) : Option Task :=
  ForEachMutate fuel (sortCallback srt ascend recent) root

/-- The tree `get` hands to its output stage, from the root as read from the
store (get.go, lines 48-56). `FiltersFromStrings` is defined outside the two
source files and is a parameter. -/
def get (FiltersFromStrings : List String → List Filter) (srt : Sorter) (fuel : Nat)
    (ascend recent : Bool) (filters : List String) (root : Task) : Option Task :=
  getSort srt fuel ascend recent (getFilter (FiltersFromStrings filters) root)

/-! ## The `list` action -/

/-- The steps of `list` before the limit (main.go, lines 134-139): the
optional sort and the optional time window. `After` is defined outside the two
source files and is a parameter; `now` is the reading of the clock. -/
def listSelect (srt : Sorter) (After : Int → List Task → List Task) (assend all : Bool)
    (now duration : Int) (tasks : List Task) : List Task :=
  let tasks := if assend then srt (Reverse ByID) tasks else tasks
  if !all then After (now - duration) tasks else tasks

/-- The limit step of `list` (main.go, lines 140-142). -/
def listLimit (limit : Int) (tasks : List Task) : List Task :=
  if limit > 0 ∧ (tasks.length : Int) > limit then tasks.take limit.toNat else tasks

/-- The tasks `list` outputs, from the sequence returned by `ReadTasks`
(main.go, lines 132-148); both output branches print this sequence. -/
def list (srt : Sorter) (After : Int → List Task → List Task) (assend all : Bool)
    (limit now duration : Int) (tasks : List Task) : List Task :=
  listLimit limit (listSelect srt After assend all now duration tasks)

/-! ## Order predicates and sample inputs -/

/-- Most-recent-first order of two tasks by earliest start: `a` may stand
before `b`. A task with no started pomodoro is the oldest, so nothing started
may stand after it. -/
def RecentFirst (a b : Task) : Prop :=
  match earliestStart a, earliestStart b with
  | _, none => True
  | none, some _ => False
  | some x, some y => y ≤ x

/-- A task without subtasks, with one pomodoro whose start is given. -/
def leaf (id : Int) (start : Option Nat) : Task :=
  ⟨id, "", [], 0, [⟨start, none⟩], []⟩

/-- The synthetic root (id 0) over the given top-level tasks. -/
def rootOf (ts : List Task) : Task :=
  ⟨0, "", [], 0, [], ts⟩

/-- A filter parser that yields no filter. -/
def noFilters : List String → List Filter :=
  fun _ => []

/-- A world in which every collaborator succeeds: only the duration "25m"
parses, the store assigns id 1, and a server is listening. -/
def worldUp : World where
  ParseDuration := fun d => if d = "25m" then .ok 1500 else .error "invalid duration"
  NewSQLiteStore := .ok ()
  CreateOne := fun _ => .ok 1
  ReadOne := fun id => .ok (leaf id none)
  NewSocketServer := fun _ => .ok ()
  Serve := .ok ()
  startUI := .ok ()
  NewSocketClient := .ok ⟨.ok Status.empty⟩

/-- A world in which no server is listening on the socket. -/
def worldDown : World :=
  { worldUp with NewSocketClient := .error "connection refused" }

/-- A world in which the client is created but its status request fails. -/
def worldBrokenClient : World :=
  { worldUp with NewSocketClient := .ok ⟨.error "unexpected EOF"⟩ }

/-- The task `create` and `start` hand to `CreateOne`. -/
def newTask (parsed pomodoros : Int) (message : String) (tags : List String) : Task :=
  { ID := 0, Message := message, Tags := tags, Pomodoros := NewPomodoros pomodoros,
    Duration := parsed, Tasks := [] }

/-! ## Helper lemmas -/

theorem Task.height_eq (t : Task) : t.height = heightList t.Tasks + 1 := by
  cases t; simp [Task.height]

theorem height_le_heightList : ∀ (ts : List Task) (c : Task), c ∈ ts → c.height ≤ heightList ts
  | [], _, h => by simp at h
  | t :: ts, c, h => by
    simp only [heightList]
    rcases List.mem_cons.mp h with rfl | h
    · exact le_max_left _ _
    · exact le_trans (height_le_heightList ts c h) (le_max_right _ _)

theorem optMap_forall₂ {α β : Type} (f : α → Option β) (Q : α → β → Prop) :
    ∀ xs : List α, (∀ x ∈ xs, ∃ y, f x = some y ∧ Q x y) →
      ∃ ys, optMap f xs = some ys ∧ List.Forall₂ Q xs ys
  | [], _ => ⟨[], rfl, List.Forall₂.nil⟩
  | x :: xs, h => by
    obtain ⟨y, hy, hq⟩ := h x (List.mem_cons_self _ _)
    obtain ⟨ys, hys, hqs⟩ := optMap_forall₂ f Q xs (fun a ha => h a (List.mem_cons_of_mem _ ha))
    exact ⟨y :: ys, by simp [optMap, hy, hys], List.Forall₂.cons hq hqs⟩

/-- Induction principle for the traversal: when the callback only rearranges
the children it is given, enough fuel yields a result, and any relation that
is preserved node by node holds between the input and the result. -/
theorem ForEachMutate_spec (fn : Task → Task) (Q : Task → Task → Prop)
    (hfn : ∀ t c, c ∈ (fn t).Tasks → c ∈ t.Tasks)
    (step : ∀ t rs, List.Forall₂ Q (fn t).Tasks rs → Q t { fn t with Tasks := rs }) :
    ∀ fuel t, t.height ≤ fuel → ∃ r, ForEachMutate fuel fn t = some r ∧ Q t r := by
  intro fuel
  induction fuel with
  | zero =>
    intro t ht
    rw [Task.height_eq] at ht
    omega
  | succ n ih =>
    intro t ht
    rw [Task.height_eq] at ht
    have hc : ∀ c ∈ (fn t).Tasks, ∃ r, ForEachMutate n fn c = some r ∧ Q c r := by
      intro c hmem
      apply ih
      have := height_le_heightList t.Tasks c (hfn t c hmem)
      omega
    obtain ⟨rs, hrs, hq⟩ := optMap_forall₂ _ Q _ hc
    exact ⟨{ fn t with Tasks := rs }, by simp [ForEachMutate, hrs], step t rs hq⟩

theorem Task.nodes_eq (t : Task) : t.nodes = t :: nodesList t.Tasks := by
  cases t; simp [Task.nodes]

theorem mem_nodesList : ∀ (ts : List Task) (n : Task), n ∈ nodesList ts → ∃ c ∈ ts, n ∈ c.nodes
  | [], _, h => by simp [nodesList] at h
  | t :: ts, n, h => by
    simp only [nodesList, List.mem_append] at h
    rcases h with h | h
    · exact ⟨t, List.mem_cons_self _ _, h⟩
    · obtain ⟨c, hc, hn⟩ := mem_nodesList ts n h
      exact ⟨c, List.mem_cons_of_mem _ hc, hn⟩

theorem forall₂_mem_right {α β : Type} {Q : α → β → Prop} :
    ∀ {xs : List α} {ys : List β}, List.Forall₂ Q xs ys → ∀ y ∈ ys, ∃ x ∈ xs, Q x y
  | _, _, .nil, y, h => by simp at h
  | _, _, .cons (a := a) hq hqs, y, h => by
    rcases List.mem_cons.mp h with rfl | h
    · exact ⟨a, List.mem_cons_self _ _, hq⟩
    · obtain ⟨x, hx, hxy⟩ := forall₂_mem_right hqs y h
      exact ⟨x, List.mem_cons_of_mem _ hx, hxy⟩

theorem pairwise_of_forall₂ {α β : Type} {Q : α → β → Prop} {R : α → α → Prop}
    {S : β → β → Prop} (hRS : ∀ a b a' b', Q a a' → Q b b' → R a b → S a' b') :
    ∀ {xs : List α} {ys : List β}, List.Forall₂ Q xs ys → xs.Pairwise R → ys.Pairwise S
  | _, _, .nil, _ => List.Pairwise.nil
  | _, _, .cons (a := a) hq hqs, hp => by
    rw [List.pairwise_cons] at hp ⊢
    refine ⟨?_, pairwise_of_forall₂ hRS hqs hp.2⟩
    intro y hy
    obtain ⟨x, hx, hxy⟩ := forall₂_mem_right hqs y hy
    exact hRS a x _ y hq hxy (hp.1 x hx)

/-! ### Comparators -/

theorem strictWeak_of_key {κ : Type} [LinearOrder κ] (key : Task → κ)
    (less : Task → Task → Bool) (h : ∀ a b, less a b = true ↔ key a < key b) :
    StrictWeak less := by
  have hf : ∀ a b, less a b = false ↔ key b ≤ key a := by
    intro a b
    rw [← not_lt, ← h a b]
    simp
  refine ⟨?_, ?_, ?_⟩
  · intro a
    rw [hf]
  · intro a b c hab hbc
    rw [h] at *
    exact lt_trans hab hbc
  · intro a b c hab hbc
    rw [hf] at *
    exact le_trans hbc hab

theorem StrictWeak.reverse {less : Task → Task → Bool} (h : StrictWeak less) :
    StrictWeak (Reverse less) :=
  ⟨fun a => h.irrefl a, fun a b c hab hbc => h.trans c b a hbc hab,
    fun a b c hab hbc => h.incomp c b a hbc hab⟩

theorem strictWeak_TasksByID : StrictWeak TasksByID :=
  strictWeak_of_key Task.ID TasksByID (fun a b => by simp [TasksByID])

theorem strictWeak_ByID : StrictWeak ByID :=
  strictWeak_of_key Task.ID ByID (fun a b => by simp [ByID])

/-- Numeric rank of the start key: unstarted tasks rank lowest. -/
theorem TasksByStart_iff_rank (a b : Task) :
    TasksByStart a b = true ↔
      (earliestStart a).elim 0 (fun x => x + 1) < (earliestStart b).elim 0 (fun x => x + 1) := by
  unfold TasksByStart
  cases earliestStart a <;> cases earliestStart b <;> simp

theorem strictWeak_TasksByStart : StrictWeak TasksByStart :=
  strictWeak_of_key (fun t => (earliestStart t).elim 0 (fun x => x + 1)) TasksByStart
    TasksByStart_iff_rank

theorem earliestStart_sameFields {t r : Task} (h : SameFields t r) :
    earliestStart r = earliestStart t := by
  unfold earliestStart
  rw [h.2.2.2.2]

theorem TasksByID_sameFields {a b a' b' : Task} (ha : SameFields a a') (hb : SameFields b b') :
    TasksByID a' b' = TasksByID a b := by
  unfold TasksByID
  rw [ha.1, hb.1]

theorem TasksByStart_sameFields {a b a' b' : Task} (ha : SameFields a a')
    (hb : SameFields b b') : TasksByStart a' b' = TasksByStart a b := by
  unfold TasksByStart
  rw [earliestStart_sameFields ha, earliestStart_sameFields hb]

/-! ### The sorting routine -/

theorem insertionSorter_contract : SortContract insertionSorter := by
  refine ⟨?_, ?_⟩
  · intro less xs
    exact List.perm_insertionSort _ xs
  · intro less xs hw
    haveI : IsTotal Task (fun a b => less b a = false) := ⟨by
      intro a b
      by_cases h : less b a = false
      · exact Or.inl h
      · right
        by_contra h2
        have h1 : less b a = true := by simpa using h
        have h3 : less a b = true := by simpa using h2
        have := hw.trans a b a h3 h1
        rw [hw.irrefl a] at this
        exact Bool.noConfusion this⟩
    haveI : IsTrans Task (fun a b => less b a = false) :=
      ⟨fun a b c hab hbc => hw.incomp c b a hbc hab⟩
    exact List.sorted_insertionSort _ xs

theorem SortContract.mem {srt : Sorter} (hs : SortContract srt) (less : Task → Task → Bool)
    (xs : List Task) (c : Task) (h : c ∈ srt less xs) : c ∈ xs :=
  (hs.perm less xs).mem_iff.mp h

theorem sortCallback_mem {srt : Sorter} (hs : SortContract srt) (ascend recent : Bool)
    (t c : Task) (h : c ∈ (sortCallback srt ascend recent t).Tasks) : c ∈ t.Tasks := by
  unfold sortCallback at h
  split at h
  · exact hs.mem _ _ _ h
  · split at h
    · exact hs.mem _ _ _ h
    · exact h

theorem sortCallback_perm {srt : Sorter} (hs : SortContract srt) (ascend recent : Bool)
    (t : Task) : (sortCallback srt ascend recent t).Tasks.Perm t.Tasks := by
  unfold sortCallback
  split
  · exact hs.perm _ _
  · split
    · exact hs.perm _ _
    · exact List.Perm.refl _

theorem sortCallback_sameFields (srt : Sorter) (ascend recent : Bool) (t : Task) :
    SameFields t (sortCallback srt ascend recent t) := by
  unfold sortCallback SameFields
  split
  · simp
  · split <;> simp

/-- The sort step with a given comparator: with enough fuel it returns, the
result keeps the fields of the root, and at every node of the result no later
subtask is `less` than an earlier one. -/
theorem sortEach_sorted {srt : Sorter} (hs : SortContract srt) (fn : Task → Task)
    (less : Task → Task → Bool) (hw : StrictWeak less)
    (hfn : ∀ t, fn t = { t with Tasks := srt less t.Tasks })
    (hless : ∀ a b a' b', SameFields a a' → SameFields b b' → less a' b' = less a b) :
    ∀ fuel t, t.height ≤ fuel → ∃ r, ForEachMutate fuel fn t = some r ∧
      (SameFields t r ∧ ∀ n ∈ r.nodes, n.Tasks.Pairwise (fun a b => less b a = false)) := by
  apply ForEachMutate_spec fn
    (fun t r => SameFields t r ∧ ∀ n ∈ r.nodes, n.Tasks.Pairwise (fun a b => less b a = false))
  · intro t c h
    rw [hfn] at h
    exact hs.mem _ _ _ h
  · intro t rs hq
    rw [hfn] at hq ⊢
    refine ⟨⟨rfl, rfl, rfl, rfl, rfl⟩, ?_⟩
    intro n hn
    rw [Task.nodes_eq] at hn
    rcases List.mem_cons.mp hn with rfl | hn
    · exact pairwise_of_forall₂
        (fun a b a' b' ha hb hab => by rw [hless b a b' a' hb.1 ha.1]; exact hab)
        hq (hs.sorted less t.Tasks hw)
    · obtain ⟨c, hc, hnc⟩ := mem_nodesList _ n hn
      obtain ⟨x, _, hx⟩ := forall₂_mem_right hq c hc
      exact hx.2 n hnc

/-! ### The filter step -/

theorem matchAll_eq_all : ∀ (filters : List Filter) (t : Task),
    matchAll filters t = filters.all (fun f => f t)
  | [], _ => rfl
  | f :: fs, t => by
    simp only [matchAll, List.all_cons, matchAll_eq_all fs t]
    cases f t <;> simp

theorem foldl_append_filter (p : Task → Bool) : ∀ (ts found : List Task),
    ts.foldl (fun found t => if p t then found ++ [t] else found) found = found ++ ts.filter p
  | [], found => by simp
  | t :: ts, found => by
    simp only [List.foldl_cons, List.filter_cons]
    rw [foldl_append_filter p ts]
    cases p t <;> simp

theorem FindMany_eq_filter (tasks : List Task) (filters : List Filter) :
    FindMany tasks filters = tasks.filter (fun t => filters.all (fun f => f t)) := by
  unfold FindMany
  rw [foldl_append_filter (matchAll filters) tasks []]
  simp only [List.nil_append]
  congr 1
  funext t
  exact matchAll_eq_all filters t

theorem heightList_le_of_subset : ∀ (ys xs : List Task), (∀ c ∈ ys, c ∈ xs) →
    heightList ys ≤ heightList xs
  | [], _, _ => by simp [heightList]
  | y :: ys, xs, h => by
    simp only [heightList]
    exact max_le (height_le_heightList xs y (h y (List.mem_cons_self _ _)))
      (heightList_le_of_subset ys xs (fun c hc => h c (List.mem_cons_of_mem _ hc)))

theorem getFilter_height_le (filters : List Filter) (root : Task) :
    (getFilter filters root).height ≤ root.height := by
  rw [Task.height_eq, Task.height_eq]
  apply Nat.succ_le_succ
  apply heightList_le_of_subset
  intro c hc
  simp only [getFilter, FindMany_eq_filter] at hc
  exact (List.mem_filter.mp hc).1

theorem forall₂_flip_eq {α : Type} : ∀ {xs ys : List α},
    List.Forall₂ (fun t r => r = t) xs ys → ys = xs
  | _, _, .nil => rfl
  | _, _, .cons h hs => by rw [h, forall₂_flip_eq hs]

theorem ForEachMutate_noop (srt : Sorter) (fuel : Nat) (t : Task) (h : t.height ≤ fuel) :
    ForEachMutate fuel (sortCallback srt false false) t = some t := by
  obtain ⟨r, hr, heq⟩ := ForEachMutate_spec (sortCallback srt false false) (fun t r => r = t)
    (fun t c hc => by simpa [sortCallback] using hc)
    (fun t rs hq => by
      have hcb : sortCallback srt false false t = t := by simp [sortCallback]
      rw [hcb] at hq ⊢
      rw [forall₂_flip_eq hq]
      cases t
      rfl)
    fuel t h
  rw [hr, heq]

theorem srt_nil {srt : Sorter} (hs : SortContract srt) (less : Task → Task → Bool) :
    srt less [] = [] :=
  List.perm_nil.mp (hs.perm less [])

theorem srt_pair_swap {srt : Sorter} (hs : SortContract srt) (less : Task → Task → Bool)
    (hw : StrictWeak less) (a b : Task) (hab : less b a = true) :
    srt less [a, b] = [b, a] := by
  have hp := hs.perm less [a, b]
  have hsorted := hs.sorted less [a, b] hw
  have hlen := hp.length_eq
  match hx : srt less [a, b], hlen with
  | [x, y], _ =>
    rw [hx] at hp hsorted
    have hyx : less y x = false := by
      simpa using hsorted
    have hxmem : x ∈ [a, b] := hp.mem_iff.mp (List.mem_cons_self _ _)
    rcases List.mem_cons.mp hxmem with rfl | hxb
    · have hy : [y].Perm [b] := (List.perm_cons x).mp hp
      have hyb : y = b := by simpa using List.perm_singleton.mp hy
      rw [hyb, hab] at hyx
      exact Bool.noConfusion hyx
    · have hxb : x = b := by simpa using hxb
      subst hxb
      have hp2 : [x, y].Perm [x, a] := hp.trans (List.Perm.swap x a [])
      have hy : [y].Perm [a] := (List.perm_cons x).mp hp2
      have hya : y = a := by simpa using List.perm_singleton.mp hy
      rw [hya]

theorem Reordered.sameFields {t r : Task} (h : Reordered t r) : SameFields t r := by
  cases h with
  | node _ _ _ hf _ _ => exact hf

theorem forall₂_reordered_ids : ∀ {ts cs : List Task},
    List.Forall₂ Reordered ts cs → cs.map Task.ID = ts.map Task.ID
  | _, _, .nil => rfl
  | _, _, .cons h hs => by
    simp only [List.map_cons, h.sameFields.1, forall₂_reordered_ids hs]

/-- A reordered tree has, at its root, the same fields and as many subtasks,
with the same ids up to order. -/
theorem Reordered.root_ids {t r : Task} (h : Reordered t r) :
    SameFields t r ∧ (r.Tasks.map Task.ID).Perm (t.Tasks.map Task.ID) := by
  cases h with
  | node _ _ cs hf hcs hperm =>
    refine ⟨hf, ?_⟩
    rw [← forall₂_reordered_ids hcs]
    exact hperm.symm.map Task.ID

/-! ## The claims about `get` -/

/-- C2. The filter step of `get` replaces the tasks of the root by exactly the
top-level tasks that pass every filter, each filter being evaluated on the
task itself: the kept tasks are the same values (subtasks included), in their
original relative order; the root keeps its own fields, and with no filter
every top-level task is kept. -/
theorem get_filter_step (filters : List Filter) (root : Task) :
    (getFilter filters root).Tasks = root.Tasks.filter (fun t => filters.all (fun f => f t)) ∧
    (getFilter filters root).Tasks.Sublist root.Tasks ∧
    (∀ t, t ∈ (getFilter filters root).Tasks ↔ t ∈ root.Tasks ∧ ∀ f ∈ filters, f t = true) ∧
    (getFilter [] root).Tasks = root.Tasks ∧
    SameFields root (getFilter filters root) := by
  have h : (getFilter filters root).Tasks
      = root.Tasks.filter (fun t => filters.all (fun f => f t)) := by
    simp only [getFilter, FindMany_eq_filter]
  refine ⟨h, ?_, ?_, ?_, ⟨rfl, rfl, rfl, rfl, rfl⟩⟩
  · rw [h]
    exact List.filter_sublist _
  · intro t
    rw [h, List.mem_filter, List.all_eq_true]
  · simp [getFilter, FindMany_eq_filter]

/-- C4 (evaluation at the failing input). With ascend set, `get` on a root
whose top-level tasks have ids 1 and 2, in that order, returns them in the
order 2, 1, whatever the recent option is and whichever routine implements
`sort.Sort`: the newest task comes first, so the ids do not ascend. -/
theorem get_ascend_newest_first {srt : Sorter} (hs : SortContract srt) (recent : Bool) :
    get noFilters srt 2 true recent [] (rootOf [leaf 1 none, leaf 2 none])
        = some (rootOf [leaf 2 none, leaf 1 none]) ∧
      ¬ (rootOf [leaf 2 none, leaf 1 none]).Tasks.Pairwise (fun a b => a.ID ≤ b.ID) := by
  have hw := strictWeak_TasksByID.reverse
  have hswap := srt_pair_swap hs (Reverse TasksByID) hw (leaf 1 none) (leaf 2 none)
    (by simp [Reverse, TasksByID, leaf])
  have hnil := srt_nil hs (Reverse TasksByID)
  constructor
  · simp only [get, getSort, getFilter, noFilters, FindMany, rootOf, List.foldl_cons,
      List.foldl_nil, matchAll, if_true, List.nil_append, List.cons_append, ForEachMutate,
      sortCallback, hswap, optMap]
    simp [leaf, hnil, optMap]
  · simp [rootOf, leaf]

theorem get_ascend_newest_first_witness :
    get noFilters insertionSorter 2 true false [] (rootOf [leaf 1 none, leaf 2 none])
        = some (rootOf [leaf 2 none, leaf 1 none]) ∧
      ¬ (rootOf [leaf 2 none, leaf 1 none]).Tasks.Pairwise (fun a b => a.ID ≤ b.ID) :=
  get_ascend_newest_first insertionSorter_contract false

/-- The sort step returns, given fuel for the height of the tree, a reordering
of its input. -/
theorem sortStep_reordered {srt : Sorter} (hs : SortContract srt) (fuel : Nat)
    (ascend recent : Bool) (root : Task) (hfuel : root.height ≤ fuel) :
    ∃ r, ForEachMutate fuel (sortCallback srt ascend recent) root = some r ∧ Reordered root r :=
  ForEachMutate_spec (sortCallback srt ascend recent) Reordered
    (sortCallback_mem hs ascend recent)
    (fun t rs hq => by
      obtain ⟨cs, hcs, hperm⟩ :=
        List.perm_comp_forall₂ (sortCallback_perm hs ascend recent t).symm hq
      exact Reordered.node t _ cs (sortCallback_sameFields srt ascend recent t) hcs hperm)
    fuel root hfuel

theorem recentFirst_of_not_less (a b : Task) (h : TasksByStart a b = false) :
    RecentFirst a b := by
  unfold TasksByStart at h
  unfold RecentFirst
  cases ha : earliestStart a <;> cases hb : earliestStart b <;> simp [ha, hb] at h ⊢
  exact h

/-- What `get` does with ascend set, on every tree: the result is a reordering
of the filtered tree in which, at every node, the subtasks are in
non-increasing id order (newest first). -/
theorem get_ascend_order (F : List String → List Filter) {srt : Sorter}
    (hs : SortContract srt) (fuel : Nat) (recent : Bool) (filters : List String) (root : Task)
    (hfuel : root.height ≤ fuel) :
    ∃ r, get F srt fuel true recent filters root = some r ∧
      Reordered (getFilter (F filters) root) r ∧
      ∀ n ∈ r.nodes, n.Tasks.Pairwise (fun a b => b.ID ≤ a.ID) := by
  have hheight := le_trans (getFilter_height_le (F filters) root) hfuel
  obtain ⟨r, hr, _, hsorted⟩ := sortEach_sorted hs (sortCallback srt true recent)
    (Reverse TasksByID) strictWeak_TasksByID.reverse (fun t => by simp [sortCallback])
    (fun a b a' b' ha hb => TasksByID_sameFields hb ha) fuel (getFilter (F filters) root)
    hheight
  obtain ⟨r2, hr2, hre⟩ := sortStep_reordered hs fuel true recent _ hheight
  rw [hr] at hr2
  rw [← Option.some.inj hr2] at hre
  refine ⟨r, hr, hre, fun n hn => (hsorted n hn).imp ?_⟩
  intro a b hab
  simpa [Reverse, TasksByID] using hab

/-- C5. With recent set and ascend unset, `get` returns (given fuel for the
height of the tree) the filtered tree with the subtasks of every node left in
most-recent-first order: the result is a reordering of the filtered tree (at
every node the same subtasks, none dropped, added or altered in its own
fields), and at every node of the result the earliest start does not increase
along the subtask list, a task with no started pomodoro, counting as the
oldest, coming after every started one. -/
theorem get_recent_order (F : List String → List Filter) {srt : Sorter}
    (hs : SortContract srt) (fuel : Nat) (filters : List String) (root : Task)
    (hfuel : root.height ≤ fuel) :
    ∃ r, get F srt fuel false true filters root = some r ∧
      Reordered (getFilter (F filters) root) r ∧
      ∀ n ∈ r.nodes, n.Tasks.Pairwise RecentFirst := by
  have hheight := le_trans (getFilter_height_le (F filters) root) hfuel
  obtain ⟨r, hr, _, hsorted⟩ := sortEach_sorted hs (sortCallback srt false true)
    (Reverse TasksByStart) strictWeak_TasksByStart.reverse (fun t => by simp [sortCallback])
    (fun a b a' b' ha hb => TasksByStart_sameFields hb ha) fuel (getFilter (F filters) root)
    hheight
  obtain ⟨r2, hr2, hre⟩ := sortStep_reordered hs fuel false true _ hheight
  rw [hr] at hr2
  rw [← Option.some.inj hr2] at hre
  exact ⟨r, hr, hre,
    fun n hn => (hsorted n hn).imp (fun {a b} hab => recentFirst_of_not_less a b hab)⟩

theorem get_recent_order_witness :
    (∃ r, get noFilters insertionSorter 2 false true []
        (rootOf [leaf 1 none, leaf 2 (some 5), leaf 3 (some 9)]) = some r ∧
      Reordered (getFilter (noFilters []) (rootOf [leaf 1 none, leaf 2 (some 5), leaf 3 (some 9)])) r ∧
      ∀ n ∈ r.nodes, n.Tasks.Pairwise RecentFirst) ∧
    get noFilters insertionSorter 2 false true []
        (rootOf [leaf 1 none, leaf 2 (some 5), leaf 3 (some 9)])
      = some (rootOf [leaf 3 (some 9), leaf 2 (some 5), leaf 1 none]) :=
  ⟨get_recent_order noFilters insertionSorter_contract 2 []
    (rootOf [leaf 1 none, leaf 2 (some 5), leaf 3 (some 9)]) (by decide), rfl⟩

/-- C6. For every tree and every setting of ascend and recent, the sort step
of `get` returns (given fuel for the height of the tree) a tree of the same
shape: at every node the subtasks are a permutation of the original subtasks
of that node, so no task is inserted, removed or moved to another parent; and
with neither option set the tree is returned unchanged. -/
theorem getSort_keeps_shape {srt : Sorter} (hs : SortContract srt) (fuel : Nat)
    (ascend recent : Bool) (root : Task) (hfuel : root.height ≤ fuel) :
    ∃ r, getSort srt fuel ascend recent root = some r ∧ Reordered root r ∧
      (ascend = false → recent = false → r = root) := by
  obtain ⟨r, hr, hre⟩ := ForEachMutate_spec (sortCallback srt ascend recent) Reordered
    (sortCallback_mem hs ascend recent)
    (fun t rs hq => by
      obtain ⟨cs, hcs, hperm⟩ :=
        List.perm_comp_forall₂ (sortCallback_perm hs ascend recent t).symm hq
      exact Reordered.node t _ cs (sortCallback_sameFields srt ascend recent t) hcs hperm)
    fuel root hfuel
  refine ⟨r, hr, hre, ?_⟩
  intro ha hrec
  subst ha hrec
  have h := ForEachMutate_noop srt fuel root hfuel
  rw [h] at hr
  exact (Option.some.inj hr).symm

theorem getSort_keeps_shape_witness :
    ∃ r, getSort insertionSorter 3 false true
        (rootOf [leaf 1 none, ⟨2, "", [], 0, [], [leaf 3 (some 5), leaf 4 (some 9)]⟩]) = some r ∧
      Reordered (rootOf [leaf 1 none, ⟨2, "", [], 0, [], [leaf 3 (some 5), leaf 4 (some 9)]⟩]) r ∧
      (false = false → true = false →
        r = rootOf [leaf 1 none, ⟨2, "", [], 0, [], [leaf 3 (some 5), leaf 4 (some 9)]⟩]) :=
  getSort_keeps_shape insertionSorter_contract 3 false true _ (by decide)

/-- C10. In `get` ascend takes precedence over recent: with ascend set the
callback sorts the subtasks by reversed `TasksByID` whatever recent is, so the
result of `get` is the same with recent set or unset; with ascend unset the
recent option does change the result on some tree. -/
theorem get_ascend_precedence (F : List String → List Filter) (srt : Sorter) (fuel : Nat)
    (filters : List String) (root : Task) :
    get F srt fuel true true filters root = get F srt fuel true false filters root ∧
    (∀ recent task, sortCallback srt true recent task
        = { task with Tasks := srt (Reverse TasksByID) task.Tasks }) ∧
    (∃ s t, SortContract s ∧
      get noFilters s 2 false true [] t ≠ get noFilters s 2 false false [] t) := by
  refine ⟨rfl, fun recent task => by simp [sortCallback], ?_⟩
  refine ⟨insertionSorter, rootOf [leaf 1 (some 5), leaf 2 (some 9)], insertionSorter_contract, ?_⟩
  intro h
  have h2 := congrArg (fun o : Option Task => o.map (fun r => r.Tasks.map Task.ID)) h
  revert h2
  decide

/-! ## The claims about the actions of `main.go` -/

/-- C1. When creating the socket client fails, `_status` outputs the empty
status `Status{}` and returns normally: it does not take the failure path and
it issues no status request. -/
theorem status_without_server (w : World) (e : Error) (h : w.NewSocketClient = .error e) :
    (_status w).result = .ok () ∧ (_status w).failed = false ∧
    (_status w).trace = [.NewSocketClient, .outputStatus Status.empty] ∧
    (_status w).trace.any Event.isStatusRequest = false := by
  simp [_status, h, Cmd.failed, emit, Bind.bind, Cmd.bind, Pure.pure, Event.isStatusRequest]

theorem status_without_server_witness :
    (_status worldDown).result = .ok () ∧ (_status worldDown).failed = false ∧
    (_status worldDown).trace = [.NewSocketClient, .outputStatus Status.empty] ∧
    (_status worldDown).trace.any Event.isStatusRequest = false :=
  status_without_server worldDown "connection refused" rfl

/-- C9 (counterexample). With a client that was created but whose status
request fails, `_status` takes the failure path and outputs no status. -/
theorem status_request_failure_fails :
    (_status worldBrokenClient).failed = true ∧
    (_status worldBrokenClient).result = .error "unexpected EOF" ∧
    (_status worldBrokenClient).trace = [.NewSocketClient, .ClientStatus] ∧
    (_status worldBrokenClient).trace.any (Event.outputs Status.empty) = false := by
  refine ⟨rfl, rfl, rfl, rfl⟩

/-- C9 (amended). Only the failure to create the client is recovered: then
`_status` outputs the empty status and returns normally. When the client is
created and its status request fails with `e`, `_status` takes the failure
path with `e` and outputs nothing; when the request succeeds the status
received is output and the client is closed. -/
theorem status_outcome (w : World) :
    match w.NewSocketClient with
    | .error _ =>
      (_status w).result = .ok () ∧
        (_status w).trace = [.NewSocketClient, .outputStatus Status.empty]
    | .ok client =>
      match client.Status with
      | .error e =>
        (_status w).result = .error e ∧ (_status w).trace = [.NewSocketClient, .ClientStatus]
      | .ok s =>
        (_status w).result = .ok () ∧
          (_status w).trace = [.NewSocketClient, .ClientStatus, .outputStatus s, .ClientClose] := by
  cases h : w.NewSocketClient with
  | error e => simp [_status, h, emit, Bind.bind, Cmd.bind, Pure.pure]
  | ok client =>
    cases h2 : client.Status with
    | error e => simp [_status, h, h2, emit, maybe, Bind.bind, Cmd.bind, Pure.pure]
    | ok st => simp [_status, h, h2, emit, maybe, Bind.bind, Cmd.bind, Pure.pure]

/-- C7. When the duration option does not parse, `create` and `start` take the
failure path before the store is opened: no collaborator is called at all, so
no task is created and the store is not written. And every run of `create`
that returns normally wrote the store by exactly one `CreateOne` call. -/
theorem duration_checked_before_store (w : World) (d : String) (n : Int) (m : String)
    (g : List String) :
    (∀ e, w.ParseDuration d = .error e →
      (create w d n m g).result = .error e ∧ (create w d n m g).trace = [] ∧
      (start w d n m g).result = .error e ∧ (start w d n m g).trace = []) ∧
    ((create w d n m g).result = .ok () →
      ((create w d n m g).trace.filter Event.isWrite).length = 1) := by
  constructor
  · intro e h
    simp [create, start, h, maybe, Bind.bind, Cmd.bind]
  · cases hp : w.ParseDuration d with
    | error e => simp [create, hp, maybe, Bind.bind, Cmd.bind]
    | ok parsed =>
      cases ho : w.NewSQLiteStore with
      | error e => simp [create, hp, ho, maybe, emit, Bind.bind, Cmd.bind]
      | ok u =>
        cases hc : w.CreateOne (newTask parsed n m g) with
        | error e =>
          simp [newTask] at hc
          simp [create, hp, ho, hc, maybe, emit, Bind.bind, Cmd.bind]
        | ok id =>
          simp [newTask] at hc
          simp [create, hp, ho, hc, maybe, emit, Bind.bind, Cmd.bind, Event.isWrite]

theorem duration_checked_before_store_witness :
    ((create worldUp "soon" 4 "write report" []).result = .error "invalid duration" ∧
      (create worldUp "soon" 4 "write report" []).trace = [] ∧
      (start worldUp "soon" 4 "write report" []).result = .error "invalid duration" ∧
      (start worldUp "soon" 4 "write report" []).trace = []) ∧
    ((create worldUp "25m" 4 "write report" []).trace.filter Event.isWrite).length = 1 :=
  ⟨(duration_checked_before_store worldUp "soon" 4 "write report" []).1 "invalid duration" rfl,
    (duration_checked_before_store worldUp "25m" 4 "write report" []).2 rfl⟩

/-- C8 (counterexample). With a pomodoro count of 0 and collaborators that
succeed, `create` and `start` return normally and the task, holding no
pomodoro, is handed to `CreateOne`. -/
theorem zero_count_accepted :
    (create worldUp "25m" 0 "write report" []).failed = false ∧
    (create worldUp "25m" 0 "write report" []).trace.any Event.isWrite = true ∧
    (start worldUp "25m" 0 "write report" []).failed = false ∧
    (start worldUp "25m" 0 "write report" []).trace.any Event.isWrite = true := by
  refine ⟨rfl, rfl, rfl, rfl⟩

/-- C8 (amended). `create` and `start` do not check the pomodoro count. For
every count `n`, zero and negative counts included, when the duration parses
and the store opens, each of them calls `CreateOne` exactly once, with the
task built from `NewPomodoros n`; `create` ends as that call ends (failure
path exactly when `CreateOne` reports an error), and `start` returns normally
when the collaborators it calls all succeed. -/
theorem count_not_checked (w : World) (d : String) (n : Int) (m : String) (g : List String)
    (parsed : Int) (hp : w.ParseDuration d = .ok parsed)
    (ho : w.NewSQLiteStore = .ok ()) :
    (create w d n m g).trace.filter Event.isWrite = [.CreateOne (newTask parsed n m g)] ∧
    (create w d n m g).result = (w.CreateOne (newTask parsed n m g)).map (fun _ => ()) ∧
    (start w d n m g).trace.filter Event.isWrite = [.CreateOne (newTask parsed n m g)] ∧
    (∀ id t, w.CreateOne (newTask parsed n m g) = .ok id → w.ReadOne id = .ok t →
      w.NewSocketServer t = .ok () → w.startUI = .ok () → w.Serve = .ok () →
      (start w d n m g).result = .ok ()) := by
  refine ⟨?_, ?_, ?_, ?_⟩
  · cases hc : w.CreateOne (newTask parsed n m g) with
    | error e =>
      simp [newTask] at hc
      simp [create, hp, ho, hc, maybe, emit, Bind.bind, Cmd.bind, Event.isWrite, newTask]
    | ok id =>
      simp [newTask] at hc
      simp [create, hp, ho, hc, maybe, emit, Bind.bind, Cmd.bind, Event.isWrite, newTask]
  · cases hc : w.CreateOne (newTask parsed n m g) with
    | error e =>
      simp [newTask] at hc
      simp [create, hp, ho, hc, maybe, emit, Bind.bind, Cmd.bind, Except.map]
    | ok id =>
      simp [newTask] at hc
      simp [create, hp, ho, hc, maybe, emit, Bind.bind, Cmd.bind, Except.map]
  · cases hc : w.CreateOne (newTask parsed n m g) with
    | error e =>
      simp [newTask] at hc
      simp [start, hp, ho, hc, maybe, emit, Bind.bind, Cmd.bind, Event.isWrite, newTask]
    | ok id =>
      simp [newTask] at hc
      cases hr : w.ReadOne id with
      | error e =>
        simp [start, hp, ho, hc, hr, maybe, emit, Bind.bind, Cmd.bind, Event.isWrite, newTask]
      | ok t =>
        cases hsrv : w.NewSocketServer t with
        | error e =>
          simp [start, hp, ho, hc, hr, hsrv, maybe, emit, Bind.bind, Cmd.bind, Event.isWrite,
            newTask]
        | ok u =>
          cases hui : w.startUI with
          | error e =>
            simp [start, hp, ho, hc, hr, hsrv, hui, maybe, emit, Bind.bind, Cmd.bind,
              Event.isWrite, newTask]
          | ok u2 =>
            cases hserve : w.Serve with
            | error e =>
              simp [start, hp, ho, hc, hr, hsrv, hui, hserve, maybe, emit, Bind.bind, Cmd.bind,
                Event.isWrite, newTask]
            | ok u3 =>
              simp [start, hp, ho, hc, hr, hsrv, hui, hserve, maybe, emit, Bind.bind, Cmd.bind,
                Event.isWrite, newTask]
  · intro id t hc hr hsrv hui hserve
    simp [newTask] at hc
    simp [start, hp, ho, hc, hr, hsrv, hui, hserve, maybe, emit, Bind.bind, Cmd.bind]

theorem count_not_checked_witness :
    (create worldUp "25m" 0 "write report" []).trace.filter Event.isWrite
      = [.CreateOne (newTask 1500 0 "write report" [])] ∧
    (create worldUp "25m" 0 "write report" []).result
      = (worldUp.CreateOne (newTask 1500 0 "write report" [])).map (fun _ => ()) ∧
    (start worldUp "25m" 0 "write report" []).trace.filter Event.isWrite
      = [.CreateOne (newTask 1500 0 "write report" [])] ∧
    (∀ id t, worldUp.CreateOne (newTask 1500 0 "write report" []) = .ok id →
      worldUp.ReadOne id = .ok t → worldUp.NewSocketServer t = .ok () →
      worldUp.startUI = .ok () → worldUp.Serve = .ok () →
      (start worldUp "25m" 0 "write report" []).result = .ok ()) :=
  count_not_checked worldUp "25m" 0 "write report" [] 1500 rfl rfl

/-- What the assend option of `list` does, for every routine meeting the
contract of `sort.Sort`: with all set, the sequence reaching the limit step is
a permutation of the sequence read, in non-increasing id order. -/
theorem listSelect_assend {srt : Sorter} (hs : SortContract srt)
    (After : Int → List Task → List Task) (now duration : Int) (tasks : List Task) :
    (listSelect srt After true true now duration tasks).Perm tasks ∧
    (listSelect srt After true true now duration tasks).Pairwise (fun a b => b.ID ≤ a.ID) := by
  have hsel : listSelect srt After true true now duration tasks = srt (Reverse ByID) tasks := by
    simp [listSelect]
  rw [hsel]
  refine ⟨hs.perm _ _, (hs.sorted _ tasks strictWeak_ByID.reverse).imp ?_⟩
  intro a b hab
  simpa [Reverse, ByID] using hab

/-- C3 (counterexample). With assend set, `list` on the tasks read in the
order of ids 1, 2, 3 outputs ids 3, 2, 1 for the limit 0, which is not the
sequence read, and ids 3, 2 for the limit 2, which are not its first two
tasks. -/
theorem list_assend_not_read_order :
    (list insertionSorter (fun _ ts => ts) true true 0 0 0
        [leaf 1 none, leaf 2 none, leaf 3 none]).map Task.ID = [3, 2, 1] ∧
    list insertionSorter (fun _ ts => ts) true true 0 0 0
        [leaf 1 none, leaf 2 none, leaf 3 none] ≠ [leaf 1 none, leaf 2 none, leaf 3 none] ∧
    (list insertionSorter (fun _ ts => ts) true true 2 0 0
        [leaf 1 none, leaf 2 none, leaf 3 none]).map Task.ID = [3, 2] ∧
    list insertionSorter (fun _ ts => ts) true true 2 0 0
        [leaf 1 none, leaf 2 none, leaf 3 none]
      ≠ [leaf 1 none, leaf 2 none, leaf 3 none].take (min 2 3) := by
  refine ⟨by decide, ?_, by decide, ?_⟩
  · intro h
    have h2 := congrArg (fun l : List Task => l.map Task.ID) h
    revert h2
    decide
  · intro h
    have h2 := congrArg (fun l : List Task => l.map Task.ID) h
    revert h2
    decide

/-- C3 (amended). The tasks `list` outputs are the sequence reaching the limit
step cut to the limit `n`: for `n > 0` exactly its first `min n len` tasks, so
at most `n` tasks and an initial segment in the same order; for `n ≤ 0` that
sequence unchanged. The sequence reaching the limit step is the sequence read
from the store after the sort by reversed `ByID` when assend is set and after
the time window when all is unset; with assend unset and all set it is the
sequence read. -/
theorem list_limit (srt : Sorter) (After : Int → List Task → List Task) (assend all : Bool)
    (n now duration : Int) (tasks : List Task) :
    (0 < n →
      list srt After assend all n now duration tasks
        = (listSelect srt After assend all now duration tasks).take
            (min n.toNat (listSelect srt After assend all now duration tasks).length) ∧
      ((list srt After assend all n now duration tasks).length : Int) ≤ n) ∧
    (n ≤ 0 →
      list srt After assend all n now duration tasks
        = listSelect srt After assend all now duration tasks) ∧
    (listSelect srt After assend all now duration tasks
        = if all then (if assend then srt (Reverse ByID) tasks else tasks)
          else After (now - duration) (if assend then srt (Reverse ByID) tasks else tasks)) ∧
    (assend = false → all = true →
      listSelect srt After assend all now duration tasks = tasks) := by
  refine ⟨?_, ?_, ?_, ?_⟩
  · intro hn
    unfold list
    generalize listSelect srt After assend all now duration tasks = s
    unfold listLimit
    by_cases hlen : (s.length : Int) > n
    · have h1 : n.toNat ≤ s.length := by omega
      rw [if_pos ⟨hn, hlen⟩, min_eq_left h1]
      refine ⟨rfl, ?_⟩
      rw [List.length_take, min_eq_left h1]
      omega
    · have h1 : s.length ≤ n.toNat := by omega
      rw [if_neg (fun h => hlen h.2), min_eq_right h1, List.take_length]
      refine ⟨rfl, ?_⟩
      omega
  · intro hn
    unfold list listLimit
    rw [if_neg (fun h => absurd h.1 (by omega))]
  · cases all <;> simp [listSelect]
  · intro ha hall
    subst ha hall
    simp [listSelect]

theorem list_limit_witness :
    list insertionSorter (fun _ ts => ts) false true 2 0 0
        [leaf 1 none, leaf 2 none, leaf 3 none] = [leaf 1 none, leaf 2 none] ∧
    list insertionSorter (fun _ ts => ts) false true 0 0 0
        [leaf 1 none, leaf 2 none, leaf 3 none] = [leaf 1 none, leaf 2 none, leaf 3 none] := by
  have h2 := list_limit insertionSorter (fun _ ts => ts) false true 2 0 0
    [leaf 1 none, leaf 2 none, leaf 3 none]
  have h0 := list_limit insertionSorter (fun _ ts => ts) false true 0 0 0
    [leaf 1 none, leaf 2 none, leaf 3 none]
  refine ⟨?_, ?_⟩
  · rw [(h2.1 (by decide)).1, h2.2.2.2 rfl rfl]
    rfl
  · rw [h0.2.1 (by decide), h0.2.2.2 rfl rfl]

end Pomo
